import Mathlib

/-!
Verification of the SimpleBackgroundRemover pipeline (browser background
removal around an external ONNX inference engine).

Shallow embedding conventions:
* JavaScript numbers that hold pixel bytes, sizes and counters are modelled
  as `Nat` / `Int`; floating-point quantities (mask values, normalized tensor
  values, progress ratios) are modelled as exact rationals `ℚ` — the float
  formulas of the source are read in exact arithmetic.
* `Math.round x` is `Int.floor (x + 1/2)` (JS rounds half toward +∞).
* Assignment into a `Uint8ClampedArray` clamps the (already integral) value
  into `[0, 255]`.
* Browser collaborators (canvas resampling, image decode, the inference
  engine, IndexedDB, the network) are modelled as explicit inputs.
-/

/-- JavaScript `Math.round` on an exact rational: half-up rounding. -/
def jsRound (q : ℚ) : ℤ := Int.floor (q + 1/2)

/-- Storing an integral value into a `Uint8ClampedArray` slot clamps it to the
byte range `[0, 255]`. -/
def clampByte (z : ℤ) : ℕ := (min 255 (max 0 z)).toNat

/-- One RGBA pixel of an `ImageData` buffer, four 8-bit channels. -/
structure Pixel where
  r : ℕ
  g : ℕ
  b : ℕ
  a : ℕ
  deriving DecidableEq, Repr

instance : Inhabited Pixel := ⟨⟨0, 0, 0, 0⟩⟩

/-- A decoded image: width, height and the row-major RGBA pixel buffer
(`ImageData` guarantees `data.length = width * height`; theorems carry that
invariant as a hypothesis). -/
structure Image where
  width : ℕ
  height : ℕ
  data : List Pixel
  deriving DecidableEq, Repr

/-- An inference-engine tensor: declared shape and flat payload. -/
structure Tensor where
  dims : List ℕ
  data : List ℚ
  deriving DecidableEq, Repr

/-!
## Mask compositor (`_applyMask`, src/unnamed/part_001 lines 317-340)

The source computes `maskSize = Math.sqrt(maskData.length)` — a real (float)
square root, not floored.  In exact arithmetic:
* `maskX = Math.floor((x / width) * maskSize)` is `⌊x·√len⌋ / width`
  (floor division), and `⌊x·√len⌋ = Nat.sqrt (x·x·len)`;
* `maskIdx = maskY * maskSize + maskX` is an integer exactly when `len` is a
  perfect square or `maskY = 0`; indexing a typed array at a non-integer
  position yields `undefined`, which `|| 0` turns into `0`.
-/

/-- The mask value the source selects for pixel `(x, y)`:
`maskData[maskY * maskSize + maskX] || 0` with
`maskSize = Math.sqrt(maskData.length)`, in exact real arithmetic. -/
def maskValue (mask : List ℚ) (width height x y : ℕ) : ℚ :=
  let len := mask.length
  let maskX := Nat.sqrt (x * x * len) / width
  let maskY := Nat.sqrt (y * y * len) / height
  if Nat.sqrt len * Nat.sqrt len = len then
    mask.getD (maskY * Nat.sqrt len + maskX) 0
  else if maskY = 0 then
    mask.getD maskX 0
  else
    0

/-- Per-pixel body of the compositing loop:
`data[imgIdx + 3] = Math.round(alpha * 255)` stored through the clamped
byte array; R, G, B bytes are not written. -/
def applyMaskPixel (mask : List ℚ) (width height : ℕ) (p : Pixel) (x y : ℕ) : Pixel :=
  { p with a := clampByte (jsRound (maskValue mask width height x y * 255)) }

/-- `_applyMask`: draws the original image on a canvas of the same size and
rewrites every pixel's alpha from the mask.  The double loop over
`y < height, x < width` is linearized over `i = y * width + x`. -/
def applyMask (img : Image) (mask : List ℚ) : Image :=
  { width := img.width
    height := img.height
    data := (List.range (img.width * img.height)).map fun i =>
      applyMaskPixel mask img.width img.height (img.data.getD i default)
        (i % img.width) (i / img.width) }

/-!
## Tensor preprocessor (`_preprocessImage`, lines 292-308)

The browser first resamples the input image onto a 1024×1024 canvas
(`drawImage`, external collaborator); the function below receives that
resampled `ImageData` buffer.  The loop writes
`tensorData[i] = data[i*4] / 255`, `tensorData[1024² + i] = data[i*4+1] / 255`,
`tensorData[2·1024² + i] = data[i*4+2] / 255` for `i < 1024²`.
-/

/-- `_preprocessImage` on the resampled 1024×1024 RGBA buffer: planar R,G,B
float tensor, each byte divided by 255, declared shape `[1,3,1024,1024]`. -/
def preprocessImage (data : List Pixel) : Tensor :=
  { dims := [1, 3, 1024, 1024]
    data :=
      ((List.range (1024 * 1024)).map fun i => ((data.getD i default).r : ℚ) / 255)
      ++ ((List.range (1024 * 1024)).map fun i => ((data.getD i default).g : ℚ) / 255)
      ++ ((List.range (1024 * 1024)).map fun i => ((data.getD i default).b : ℚ) / 255) }

/-!
## Model cache (`_cacheModel` lines 256-284, `_getCachedModel` lines 204-234)

IndexedDB is modelled as an environment that is either missing
(`!window.indexedDB`), fails to open (`request.onerror`), or holds the
key-value store of the `models` object store.  Every promise in the source
resolves — no handler rejects — so both operations are total functions.
-/

/-- The record `_cacheModel` writes: `{ data, timestamp, version: '1.4' }`. -/
structure CacheEntry where
  data : List ℕ
  timestamp : ℕ
  version : String
  deriving DecidableEq, Repr

/-- The browser storage environment seen by the cache code. -/
inductive IDBEnv
  | absent
  | openFails
  | ok (store : List (String × CacheEntry))
  deriving DecidableEq, Repr

/-- `_cacheModel`: best-effort write.  A missing or failing IndexedDB leaves
the environment unchanged (the promise still resolves); otherwise
`store.put({data, timestamp, version: '1.4'}, key)` replaces the record at
`key` (newest record shadows older ones). -/
def cacheModel (env : IDBEnv) (key : String) (buf : List ℕ) (now : ℕ) : IDBEnv :=
  match env with
  | .absent => .absent
  | .openFails => .openFails
  | .ok store => .ok ((key, ⟨buf, now, "1.4"⟩) :: store)

/-- `_getCachedModel`: resolves `null` when IndexedDB is missing or the open
request errors; otherwise returns `result.data` of the record at the key, or
`null` when there is none. -/
def getCachedModel (env : IDBEnv) (key : String) : Option (List ℕ) :=
  match env with
  | .absent => none
  | .openFails => none
  | .ok store =>
    match store.lookup key with
    | some e => some e.data
    | none => none

/-!
## Model fetcher (`_downloadAndCacheModelWithProgress`, lines 133-164)
-/

/-- The HTTP response handed to the fetcher: `ok` status flag, the body as a
stream of chunks in arrival order (`none` models a `null` body), and the
parsed `content-length` header (`0` when absent or unparsable). -/
structure HttpResponse where
  ok : Bool
  body : Option (List (List ℕ))
  contentLength : ℕ
  deriving DecidableEq, Repr

/-- The download-progress loop of lines 142-154, over the chunk sizes:
state is `(downloadedSize, lastPercent)`, initially `(0, 10)`; when
`totalSize > 0` each chunk computes
`percent = 10 + Math.round(downloadedSize / totalSize * 60)` and emits it
exactly when it differs from `lastPercent`. -/
def downloadEmitsAux (total : ℕ) : List ℕ → ℕ → ℤ → List ℤ
  | [], _, _ => []
  | c :: cs, downloaded, lastPercent =>
    let d2 := downloaded + c
    if 0 < total then
      let percent : ℤ := 10 + jsRound ((d2 : ℚ) / (total : ℚ) * 60)
      if percent ≠ lastPercent then
        percent :: downloadEmitsAux total cs d2 percent
      else
        downloadEmitsAux total cs d2 lastPercent
    else
      downloadEmitsAux total cs d2 lastPercent

/-- The sequence of intermediate download-progress percents emitted for a
stream with the given chunk sizes and reported total. -/
def downloadEmits (chunks : List ℕ) (total : ℕ) : List ℤ :=
  downloadEmitsAux total chunks 0 10

/-- `_downloadAndCacheModelWithProgress`: throws on a non-ok status or a null
body; otherwise concatenates the chunks in arrival order into one buffer,
writes it to the cache (best-effort) and returns it together with the new
storage environment.  Progress emission is modelled by `downloadEmits` over
the chunk lengths. -/
def downloadAndCacheModelWithProgress (resp : HttpResponse) (env : IDBEnv)
    (key : String) (now : ℕ) : Except String (List ℕ × IDBEnv) :=
  if resp.ok = false then .error "Model download failed"
  else
    match resp.body with
    | none => .error "Response body is null"
    | some chunks =>
      let modelBuffer := chunks.flatten
      .ok (modelBuffer, cacheModel env key modelBuffer now)

/-!
## Orchestrator call trace (`removeBackground` lines 42-86,
`_loadModelWithProgress` lines 107-125)

One `removeBackground` invocation is modelled as the list of externally
visible actions it performs, in program order, together with its outcome.
Progress messages are elided; only percents are kept.
-/

/-- The input value passed to `removeBackground`. -/
inductive InputVal
  | img (im : Image)
  | str (s : String)
  | num (n : ℤ)
  | other
  deriving Repr

/-- Which branch the model-loading section takes: first load with cache hit,
first load with download (given stream chunk sizes and reported total),
waiting on a concurrent load, or model already loaded. -/
inductive ModelPath
  | cacheHit
  | download (chunks : List ℕ) (total : ℕ)
  | waitLoading
  | alreadyLoaded
  deriving Repr

/-- Externally visible actions of one invocation. -/
inductive CallAction
  | progress (p : ℤ)
  | decodeBase64
  | idbAccess
  | netFetch
  | sessionCreate
  | inference
  | encode
  deriving DecidableEq, Repr

/-- Actions of `_loadModelWithProgress` (or of the wait/already-loaded
branches of lines 59-67) on each model path. -/
def modelLoadActions : ModelPath → List CallAction
  | .cacheHit =>
    [.progress 5, .idbAccess, .progress 15, .sessionCreate, .progress 30]
  | .download chunks total =>
    [.progress 5, .idbAccess, .progress 10, .netFetch]
      ++ (downloadEmits chunks total).map .progress
      ++ [.progress 75, .idbAccess, .progress 80, .sessionCreate, .progress 90]
  | .waitLoading => [.progress 10]
  | .alreadyLoaded => [.progress 10]

/-- Actions of lines 69-84: preprocess, inference, mask, result encoding. -/
def pipelineTail : List CallAction :=
  [.progress 15, .progress 35, .inference, .progress 70, .progress 90, .encode,
    .progress 100]

/-- The complete action trace and outcome of one `removeBackground` call.
A string input decodes base64 first; an image input is used directly; any
other value throws `Input must be an HTMLImageElement or a base64 string`
right after the initial progress event. -/
def removeBackgroundTrace (inp : InputVal) (mp : ModelPath) :
    List CallAction × Except String Unit :=
  match inp with
  | .str _ =>
    ([.progress 0, .progress 2, .decodeBase64] ++ modelLoadActions mp
      ++ pipelineTail, .ok ())
  | .img _ =>
    ([.progress 0] ++ modelLoadActions mp ++ pipelineTail, .ok ())
  | _ =>
    ([.progress 0], .error "Input must be an HTMLImageElement or a base64 string")

/-- The percents of the progress events of one invocation, in emission
order. -/
def tracePercents (inp : InputVal) (mp : ModelPath) : List ℤ :=
  (removeBackgroundTrace inp mp).1.filterMap fun a =>
    match a with
    | .progress p => some p
    | _ => none

/-!
## Concurrent model loading (lines 54-67 and 107-125)

JavaScript is single-threaded and cooperative: code between two `await`
points runs atomically.  A call's passage through the model-loading section
is a sequence of atomic blocks, one per program counter value below:

* `start` — lines 54-67 guard: the check of `modelLoaded`/`modelLoading`
  and, on the first branch, the synchronous `modelLoading = true`;
* `dl` — the awaited body of `_loadModelWithProgress` (cache miss: the
  model download happens here); on rejection the exception propagates and
  lines 57-58 never run (`failed`);
* `fin` — lines 57-58: `modelLoaded = true; modelLoading = false`;
* `waiting` — one iteration of the 100ms polling loop of lines 62-64;
* `run` — the rest of the pipeline (lines 68-84);
* `done` / `failed` — the call returned / rejected.

A schedule `ℕ → Fin n` says which call's next atomic block runs at each
instant; `success` says whether the model load succeeds.
-/

/-- Program counter of one `removeBackground` call inside the
model-coordination section. -/
inductive CallPc
  | start
  | dl
  | fin
  | waiting
  | run
  | done
  | failed
  deriving DecidableEq, Repr

/-- Shared orchestrator-instance state plus each call's position.
`downloads` counts initiated model downloads. -/
structure SysState (n : ℕ) where
  modelLoaded : Bool
  modelLoading : Bool
  downloads : ℕ
  pcs : Fin n → CallPc

/-- All calls at the guard, flags clear, no downloads yet. -/
def initState (n : ℕ) : SysState n :=
  { modelLoaded := false, modelLoading := false, downloads := 0
    pcs := fun _ => .start }

/-- One atomic block of call `i`, straight from lines 54-67. -/
def stepCall (success : Bool) (s : SysState n) (i : Fin n) : SysState n :=
  match s.pcs i with
  | .start =>
    if (!s.modelLoaded && !s.modelLoading) = true then
      { s with modelLoading := true, pcs := Function.update s.pcs i .dl }
    else if (!s.modelLoaded && s.modelLoading) = true then
      { s with pcs := Function.update s.pcs i .waiting }
    else
      { s with pcs := Function.update s.pcs i .run }
  | .dl =>
    if success then
      { s with downloads := s.downloads + 1, pcs := Function.update s.pcs i .fin }
    else
      { s with downloads := s.downloads + 1, pcs := Function.update s.pcs i .failed }
  | .fin =>
    { s with modelLoaded := true, modelLoading := false
             pcs := Function.update s.pcs i .run }
  | .waiting =>
    if s.modelLoading = true then s
    else { s with pcs := Function.update s.pcs i .run }
  | .run => { s with pcs := Function.update s.pcs i .done }
  | .done => s
  | .failed => s

/-- The system after `t` scheduled atomic blocks. -/
def sysRun (success : Bool) (n : ℕ) (sched : ℕ → Fin n) : ℕ → SysState n
  | 0 => initState n
  | t + 1 => stepCall success (sysRun success n sched t) (sched t)

/-- A schedule is fair when every call runs again after any point in time. -/
def FairSched (n : ℕ) (sched : ℕ → Fin n) : Prop :=
  ∀ (i : Fin n) (m : ℕ), ∃ k, m ≤ k ∧ sched k = i

/-- A call is holding the in-flight model load. -/
def inLoad (pc : CallPc) : Prop := pc = .dl ∨ pc = .fin

/-- Reachability invariant of the coordination state, for every schedule and
either load outcome: before any load everything is at the guard; during a
load there is exactly one loader and everyone else is at the guard or
polling; after a successful load nobody is loading any more. -/
def SysInv (s : SysState n) : Prop :=
  (s.modelLoaded = false ∧ s.modelLoading = false ∧ (∀ i, s.pcs i = .start) ∧
    s.downloads = 0) ∨
  (s.modelLoaded = false ∧ s.modelLoading = true ∧
    ∃ j, (s.pcs j = .dl ∨ s.pcs j = .fin ∨ s.pcs j = .failed) ∧
      (∀ k, k ≠ j → s.pcs k = .start ∨ s.pcs k = .waiting) ∧
      s.downloads = (if s.pcs j = .dl then 0 else 1)) ∨
  (s.modelLoaded = true ∧ s.modelLoading = false ∧
    (∀ i, s.pcs i ≠ .dl ∧ s.pcs i ≠ .fin ∧ s.pcs i ≠ .failed) ∧ s.downloads = 1)

/-- Invariant of the system whose model load fails: the model is never
published and no call ever reaches the pipeline (or finishes). -/
def FailInv (s : SysState n) : Prop :=
  s.modelLoaded = false ∧
    ∀ i, s.pcs i ≠ .fin ∧ s.pcs i ≠ .run ∧ s.pcs i ≠ .done

/-- A fixed strictly alternating two-call schedule; it is fair. -/
def altSched : ℕ → Fin 2 := fun k => ⟨k % 2, Nat.mod_lt k (by omega)⟩


/-- Guard with both flags clear: the call claims the load (lines 54-56). -/
theorem stepCall_start_load (success : Bool) (s : SysState n) (i : Fin n)
    (hpi : s.pcs i = .start) (hld : s.modelLoaded = false)
    (hlg : s.modelLoading = false) :
    stepCall success s i =
      { s with modelLoading := true, pcs := Function.update s.pcs i .dl } := by
  simp [stepCall, hpi, hld, hlg]

/-- Guard while another load is in flight: the call starts polling
(lines 59-64). -/
theorem stepCall_start_wait (success : Bool) (s : SysState n) (i : Fin n)
    (hpi : s.pcs i = .start) (hld : s.modelLoaded = false)
    (hlg : s.modelLoading = true) :
    stepCall success s i = { s with pcs := Function.update s.pcs i .waiting } := by
  simp [stepCall, hpi, hld, hlg]

/-- Guard with the model already loaded: straight to the pipeline
(lines 65-67). -/
theorem stepCall_start_run (success : Bool) (s : SysState n) (i : Fin n)
    (hpi : s.pcs i = .start) (hld : s.modelLoaded = true) :
    stepCall success s i = { s with pcs := Function.update s.pcs i .run } := by
  simp [stepCall, hpi, hld]

/-- The awaited load body: the download happens and, on success, the call
proceeds to publish the session. -/
theorem stepCall_dl_ok (s : SysState n) (i : Fin n) (hpi : s.pcs i = .dl) :
    stepCall true s i =
      { s with downloads := s.downloads + 1
               pcs := Function.update s.pcs i .fin } := by
  simp [stepCall, hpi]

/-- The awaited load body on the failing run: the exception skips
lines 57-58. -/
theorem stepCall_dl_err (s : SysState n) (i : Fin n) (hpi : s.pcs i = .dl) :
    stepCall false s i =
      { s with downloads := s.downloads + 1
               pcs := Function.update s.pcs i .failed } := by
  simp [stepCall, hpi]

/-- Lines 57-58: `modelLoaded = true; modelLoading = false`. -/
theorem stepCall_fin (success : Bool) (s : SysState n) (i : Fin n)
    (hpi : s.pcs i = .fin) :
    stepCall success s i =
      { s with modelLoaded := true, modelLoading := false
               pcs := Function.update s.pcs i .run } := by
  simp [stepCall, hpi]

/-- One polling iteration while the load is still in flight: no state
change. -/
theorem stepCall_wait_busy (success : Bool) (s : SysState n) (i : Fin n)
    (hpi : s.pcs i = .waiting) (hlg : s.modelLoading = true) :
    stepCall success s i = s := by
  simp [stepCall, hpi, hlg]

/-- The polling loop observes `modelLoading = false` and exits. -/
theorem stepCall_wait_free (success : Bool) (s : SysState n) (i : Fin n)
    (hpi : s.pcs i = .waiting) (hlg : s.modelLoading = false) :
    stepCall success s i = { s with pcs := Function.update s.pcs i .run } := by
  simp [stepCall, hpi, hlg]

/-- The rest of the pipeline completes. -/
theorem stepCall_run (success : Bool) (s : SysState n) (i : Fin n)
    (hpi : s.pcs i = .run) :
    stepCall success s i = { s with pcs := Function.update s.pcs i .done } := by
  simp [stepCall, hpi]

/-- A finished call never moves again. -/
theorem stepCall_done_eq (success : Bool) (s : SysState n) (i : Fin n)
    (hpi : s.pcs i = .done) : stepCall success s i = s := by
  simp [stepCall, hpi]

/-- A rejected call never moves again. -/
theorem stepCall_failed_eq (success : Bool) (s : SysState n) (i : Fin n)
    (hpi : s.pcs i = .failed) : stepCall success s i = s := by
  simp [stepCall, hpi]

/-- A step of call `i` leaves every other call's position unchanged. -/
theorem stepCall_pcs_other (success : Bool) (s : SysState n) (i j : Fin n)
    (h : j ≠ i) : (stepCall success s i).pcs j = s.pcs j := by
  cases hpi : s.pcs i <;>
    simp only [stepCall, hpi] <;>
    first
      | rfl
      | (split_ifs <;> simp [Function.update_noteq h])
      | simp [Function.update_noteq h]

/-- No step ever clears `modelLoaded`. -/
theorem stepCall_loaded_mono (success : Bool) (s : SysState n) (i : Fin n)
    (h : s.modelLoaded = true) : (stepCall success s i).modelLoaded = true := by
  cases hpi : s.pcs i <;>
    simp only [stepCall, hpi] <;>
    first
      | exact h
      | (split_ifs <;> simp [h])

/-- A finished call stays finished under any step. -/
theorem stepCall_done_stable (success : Bool) (s : SysState n) (i j : Fin n)
    (h : s.pcs i = .done) : (stepCall success s j).pcs i = .done := by
  by_cases hij : i = j
  · subst hij; rw [stepCall_done_eq success s i h]; exact h
  · rw [stepCall_pcs_other success s j i hij]; exact h

/-- A call's position is unchanged over an interval in which it is never
scheduled. -/
theorem sysRun_pcs_frozen (success : Bool) (n : ℕ) (sched : ℕ → Fin n)
    (i : Fin n) (a : ℕ) :
    ∀ b, a ≤ b → (∀ u, a ≤ u → u < b → sched u ≠ i) →
      (sysRun success n sched b).pcs i = (sysRun success n sched a).pcs i := by
  intro b
  induction b with
  | zero =>
    intro hab _
    have h0 : a = 0 := Nat.le_zero.mp hab
    rw [h0]
  | succ b ih =>
    intro hab h
    rcases Nat.lt_or_ge a (b + 1) with hlt | hge
    · have hab' : a ≤ b := Nat.lt_succ_iff.mp hlt
      have hne : i ≠ sched b := (h b hab' (Nat.lt_succ_self b)).symm
      calc (sysRun success n sched (b + 1)).pcs i
          = (stepCall success (sysRun success n sched b) (sched b)).pcs i := rfl
        _ = (sysRun success n sched b).pcs i :=
            stepCall_pcs_other success _ (sched b) i hne
        _ = (sysRun success n sched a).pcs i :=
            ih hab' (fun u hu hub => h u hu (Nat.lt_succ_of_lt hub))
    · have hend : a = b + 1 := le_antisymm hab hge
      rw [hend]

/-- Fairness yields, for every call and time, a first later instant at which
that call is scheduled. -/
theorem fair_nextSched (n : ℕ) (sched : ℕ → Fin n) (hf : FairSched n sched)
    (i : Fin n) (m : ℕ) :
    ∃ k, m ≤ k ∧ sched k = i ∧ ∀ u, m ≤ u → u < k → sched u ≠ i := by
  obtain ⟨k0, hk0m, hk0i⟩ := hf i m
  have hP : ∃ k, m ≤ k ∧ sched k = i := ⟨k0, hk0m, hk0i⟩
  refine ⟨Nat.find hP, (Nat.find_spec hP).1, (Nat.find_spec hP).2, ?_⟩
  intro u hu huk hui
  exact Nat.find_min hP huk ⟨hu, hui⟩

/-- The coordination invariant holds initially. -/
theorem sysInv_init (n : ℕ) : SysInv (initState n) := by
  exact Or.inl (by simp [initState])

/-- The coordination invariant is preserved by every atomic block, for either
load outcome. -/
theorem sysInv_step (success : Bool) (s : SysState n) (i : Fin n)
    (h : SysInv s) : SysInv (stepCall success s i) := by
  rcases h with ⟨hld, hlg, hpcs, hdl⟩ | ⟨hld, hlg, j, hj, hoth, hdl⟩ |
    ⟨hld, hlg, hpcs, hdl⟩
  · -- nothing has started: the scheduled call becomes the loader
    rw [stepCall_start_load success s i (hpcs i) hld hlg]
    refine Or.inr (Or.inl ⟨hld, rfl, i, ?_, ?_, ?_⟩)
    · simp
    · intro k hk
      simp [Function.update_noteq hk, hpcs k]
    · simp [hdl]
  · -- a load is in flight
    by_cases hij : i = j
    · subst hij
      rcases hj with hjd | hjf | hjx
      · cases success with
        | true =>
          rw [stepCall_dl_ok s i hjd]
          refine Or.inr (Or.inl ⟨hld, hlg, i, ?_, ?_, ?_⟩)
          · simp
          · intro k hk
            simp only [Function.update_noteq hk]
            exact hoth k hk
          · simp [hdl, hjd]
        | false =>
          rw [stepCall_dl_err s i hjd]
          refine Or.inr (Or.inl ⟨hld, hlg, i, ?_, ?_, ?_⟩)
          · simp
          · intro k hk
            simp only [Function.update_noteq hk]
            exact hoth k hk
          · simp [hdl, hjd]
      · rw [stepCall_fin success s i hjf]
        refine Or.inr (Or.inr ⟨rfl, rfl, ?_, ?_⟩)
        · intro k
          by_cases hk : k = i
          · subst hk; simp
          · simp only [Function.update_noteq hk]
            rcases hoth k hk with h1 | h1 <;> simp [h1]
        · simpa [hjf] using hdl
      · rw [stepCall_failed_eq success s i hjx]
        exact Or.inr (Or.inl ⟨hld, hlg, i, Or.inr (Or.inr hjx), hoth, hdl⟩)
    · rcases hoth i hij with hpi | hpi
      · rw [stepCall_start_wait success s i hpi hld hlg]
        have hji : j ≠ i := fun he => hij he.symm
        refine Or.inr (Or.inl ⟨hld, hlg, j, ?_, ?_, ?_⟩)
        · simpa [Function.update_noteq hji] using hj
        · intro k hk
          by_cases hki : k = i
          · subst hki; simp
          · simp only [Function.update_noteq hki]
            exact hoth k hk
        · simpa [Function.update_noteq hji] using hdl
      · rw [stepCall_wait_busy success s i hpi hlg]
        exact Or.inr (Or.inl ⟨hld, hlg, j, hj, hoth, hdl⟩)
  · -- model loaded: everyone runs straight through
    have hnot := hpcs i
    have hflags : (stepCall success s i).modelLoaded = true ∧
        (stepCall success s i).modelLoading = false ∧
        (stepCall success s i).downloads = 1 := by
      rcases hpc : s.pcs i with h0 | h0 | h0 | h0 | h0 | h0 | h0
      · rw [stepCall_start_run success s i hpc hld]; exact ⟨hld, hlg, hdl⟩
      · exact absurd hpc hnot.1
      · exact absurd hpc hnot.2.1
      · rw [stepCall_wait_free success s i hpc hlg]; exact ⟨hld, hlg, hdl⟩
      · rw [stepCall_run success s i hpc]; exact ⟨hld, hlg, hdl⟩
      · rw [stepCall_done_eq success s i hpc]; exact ⟨hld, hlg, hdl⟩
      · exact absurd hpc hnot.2.2
    have hsteppcs : ∀ k : Fin n, (stepCall success s i).pcs k = .run ∨
        (stepCall success s i).pcs k = .done ∨
        (stepCall success s i).pcs k = s.pcs k := by
      intro k
      by_cases hk : k = i
      · subst hk
        rcases hpc : s.pcs k with h0 | h0 | h0 | h0 | h0 | h0 | h0
        · rw [stepCall_start_run success s k hpc hld]; left; simp
        · exact absurd hpc hnot.1
        · exact absurd hpc hnot.2.1
        · rw [stepCall_wait_free success s k hpc hlg]; left; simp
        · rw [stepCall_run success s k hpc]; right; left; simp
        · rw [stepCall_done_eq success s k hpc]; right; right; exact hpc
        · exact absurd hpc hnot.2.2
      · right; right; exact stepCall_pcs_other success s i k hk
    refine Or.inr (Or.inr ⟨hflags.1, hflags.2.1, ?_, hflags.2.2⟩)
    intro k
    rcases hsteppcs k with hk | hk | hk <;> rw [hk]
    · simp
    · simp
    · exact hpcs k

/-- The coordination invariant holds at every reachable state. -/
theorem sysInv_run (success : Bool) (n : ℕ) (sched : ℕ → Fin n) (t : ℕ) :
    SysInv (sysRun success n sched t) := by
  induction t with
  | zero => exact sysInv_init n
  | succ t ih => exact sysInv_step success _ (sched t) ih

/-- Every reachable state has seen at most one initiated download. -/
theorem sysInv_downloads_le (s : SysState n) (h : SysInv s) : s.downloads ≤ 1 := by
  rcases h with ⟨_, _, _, hdl⟩ | ⟨_, _, j, _, _, hdl⟩ | ⟨_, _, _, hdl⟩
  · omega
  · rw [hdl]; split <;> omega
  · omega

/-- Mutual exclusion: two calls holding the in-flight load are the same
call. -/
theorem sysInv_inLoad_unique (s : SysState n) (h : SysInv s) (i j : Fin n)
    (hi : inLoad (s.pcs i)) (hj : inLoad (s.pcs j)) : i = j := by
  rcases h with ⟨_, _, hpcs, _⟩ | ⟨_, _, j0, _, hoth, _⟩ | ⟨_, _, hpcs, _⟩
  · rcases hi with hi | hi <;> rw [hpcs i] at hi <;> exact absurd hi (by simp)
  · have hij0 : i = j0 := by
      by_contra hne
      rcases hoth i hne with h1 | h1 <;>
        rcases hi with hi | hi <;> rw [h1] at hi <;> exact absurd hi (by simp)
    have hjj0 : j = j0 := by
      by_contra hne
      rcases hoth j hne with h1 | h1 <;>
        rcases hj with hj | hj <;> rw [h1] at hj <;> exact absurd hj (by simp)
    rw [hij0, hjj0]
  · rcases hi with hi | hi
    · exact absurd hi (hpcs i).1
    · exact absurd hi (hpcs i).2.1

/-- The failure invariant holds at every state reachable with a failing
load. -/
theorem failInv_run (n : ℕ) (sched : ℕ → Fin n) (t : ℕ) :
    FailInv (sysRun false n sched t) := by
  induction t with
  | zero => exact ⟨rfl, fun i => by simp [sysRun, initState]⟩
  | succ t ih =>
    obtain ⟨hld, hpcs⟩ := ih
    have hinv := sysInv_run false n sched t
    set s := sysRun false n sched t with hs
    have hstep : ∀ i : Fin n, FailInv (stepCall false s i) := by
      intro i
      rcases hpc : s.pcs i with h0 | h0 | h0 | h0 | h0 | h0 | h0
      · cases hlg : s.modelLoading with
        | false =>
          rw [stepCall_start_load false s i hpc hld hlg]
          refine ⟨hld, fun k => ?_⟩
          by_cases hk : k = i
          · subst hk; simp
          · simp only [Function.update_noteq hk]; exact hpcs k
        | true =>
          rw [stepCall_start_wait false s i hpc hld hlg]
          refine ⟨hld, fun k => ?_⟩
          by_cases hk : k = i
          · subst hk; simp
          · simp only [Function.update_noteq hk]; exact hpcs k
      · rw [stepCall_dl_err s i hpc]
        refine ⟨hld, fun k => ?_⟩
        by_cases hk : k = i
        · subst hk; simp
        · simp only [Function.update_noteq hk]; exact hpcs k
      · exact absurd hpc (hpcs i).1
      · have hlg : s.modelLoading = true := by
          rcases hinv with ⟨_, _, hall, _⟩ | ⟨_, hlg, _⟩ | ⟨hl3, _⟩
          · exact absurd hpc (by rw [hall i]; simp)
          · exact hlg
          · exact absurd hl3 (by rw [hld]; simp)
        rw [stepCall_wait_busy false s i hpc hlg]
        exact ⟨hld, hpcs⟩
      · exact absurd hpc (hpcs i).2.1
      · exact absurd hpc (hpcs i).2.2
      · rw [stepCall_failed_eq false s i hpc]
        exact ⟨hld, hpcs⟩
    exact hstep (sched t)

/-- With a failing load, once `modelLoading` is set it is never cleared, and
a polling call polls forever. -/
theorem failLoading_stable (n : ℕ) (sched : ℕ → Fin n) (t : ℕ) (i : Fin n)
    (hl : (sysRun false n sched t).modelLoading = true)
    (hw : (sysRun false n sched t).pcs i = .waiting) :
    ∀ d, (sysRun false n sched (t + d)).modelLoading = true ∧
      (sysRun false n sched (t + d)).pcs i = .waiting := by
  intro d
  induction d with
  | zero => exact ⟨hl, hw⟩
  | succ d ih =>
    obtain ⟨hl', hw'⟩ := ih
    obtain ⟨hld, hpcs⟩ := failInv_run n sched (t + d)
    set s := sysRun false n sched (t + d) with hs
    have harr : t + (d + 1) = (t + d) + 1 := by omega
    rw [harr]
    have hj := sched (t + d)
    constructor
    · show (stepCall false s (sched (t + d))).modelLoading = true
      rcases hpc : s.pcs (sched (t + d)) with h0 | h0 | h0 | h0 | h0 | h0 | h0
      · rw [stepCall_start_wait false s _ hpc hld hl']; exact hl'
      · rw [stepCall_dl_err s _ hpc]; exact hl'
      · exact absurd hpc (hpcs _).1
      · rw [stepCall_wait_busy false s _ hpc hl']; exact hl'
      · exact absurd hpc (hpcs _).2.1
      · exact absurd hpc (hpcs _).2.2
      · rw [stepCall_failed_eq false s _ hpc]; exact hl'
    · show (stepCall false s (sched (t + d))).pcs i = .waiting
      by_cases hk : i = sched (t + d)
      · rw [← hk, stepCall_wait_busy false s i hw' hl']; exact hw'
      · rw [stepCall_pcs_other false s _ i hk]; exact hw'

/-- `modelLoaded` is stable once set. -/
theorem loaded_forever (success : Bool) (n : ℕ) (sched : ℕ → Fin n) (t : ℕ)
    (h : (sysRun success n sched t).modelLoaded = true) (d : ℕ) :
    (sysRun success n sched (t + d)).modelLoaded = true := by
  induction d with
  | zero => exact h
  | succ d ih =>
    have harr : t + (d + 1) = (t + d) + 1 := by omega
    rw [harr]
    exact stepCall_loaded_mono success _ (sched (t + d)) ih

/-- `modelLoaded` at a later time, from any earlier time it held. -/
theorem loaded_at_ge (success : Bool) (n : ℕ) (sched : ℕ → Fin n) (T t : ℕ)
    (hTt : T ≤ t) (h : (sysRun success n sched T).modelLoaded = true) :
    (sysRun success n sched t).modelLoaded = true := by
  rw [show t = T + (t - T) from by omega]
  exact loaded_forever success n sched T h (t - T)

/-- A finished call is finished at every later time. -/
theorem done_at_ge (success : Bool) (n : ℕ) (sched : ℕ → Fin n) (i : Fin n)
    (T t : ℕ) (hTt : T ≤ t)
    (h : (sysRun success n sched T).pcs i = .done) :
    (sysRun success n sched t).pcs i = .done := by
  rw [show t = T + (t - T) from by omega]
  induction (t - T) with
  | zero => exact h
  | succ d ih =>
    have harr : T + (d + 1) = (T + d) + 1 := by omega
    rw [harr]
    exact stepCall_done_stable success _ i (sched (T + d)) ih

/-- What the invariant says once the model is published. -/
theorem sysInv_loaded_elim (s : SysState n) (h : SysInv s)
    (hld : s.modelLoaded = true) :
    s.modelLoading = false ∧ s.downloads = 1 ∧
      ∀ i, s.pcs i ≠ .dl ∧ s.pcs i ≠ .fin ∧ s.pcs i ≠ .failed := by
  rcases h with ⟨h1, _⟩ | ⟨h1, _⟩ | ⟨_, hlg, hpcs, hdl⟩
  · rw [hld] at h1; exact absurd h1 (by simp)
  · rw [hld] at h1; exact absurd h1 (by simp)
  · exact ⟨hlg, hdl, hpcs⟩

/-- Under a fair schedule and a successful load, the model is eventually
published: the first scheduled call claims the load and its later scheduled
blocks complete it. -/
theorem loaded_eventually (n : ℕ) (sched : ℕ → Fin n) (hf : FairSched n sched) :
    ∃ T, (sysRun true n sched T).modelLoaded = true := by
  have h1 : (sysRun true n sched 1).pcs (sched 0) = .dl := by
    have he : sysRun true n sched 1 = stepCall true (initState n) (sched 0) := rfl
    rw [he, stepCall_start_load true (initState n) (sched 0) rfl rfl rfl]
    simp
  obtain ⟨k1, hk1le, hk1a, hk1min⟩ := fair_nextSched n sched hf (sched 0) 1
  have hfz1 : (sysRun true n sched k1).pcs (sched 0) = .dl := by
    rw [sysRun_pcs_frozen true n sched (sched 0) 1 k1 hk1le hk1min]
    exact h1
  have h2 : (sysRun true n sched (k1 + 1)).pcs (sched 0) = .fin := by
    show (stepCall true (sysRun true n sched k1) (sched k1)).pcs (sched 0) = .fin
    rw [hk1a, stepCall_dl_ok _ (sched 0) hfz1]
    simp
  obtain ⟨k2, hk2le, hk2a, hk2min⟩ := fair_nextSched n sched hf (sched 0) (k1 + 1)
  have hfz2 : (sysRun true n sched k2).pcs (sched 0) = .fin := by
    rw [sysRun_pcs_frozen true n sched (sched 0) (k1 + 1) k2 hk2le hk2min]
    exact h2
  refine ⟨k2 + 1, ?_⟩
  show (stepCall true (sysRun true n sched k2) (sched k2)).modelLoaded = true
  rw [hk2a, stepCall_fin true _ (sched 0) hfz2]

/-- Under a fair schedule, once the model is published every call finishes
within two of its own scheduled blocks. -/
theorem call_done_eventually (n : ℕ) (sched : ℕ → Fin n)
    (hf : FairSched n sched) (i : Fin n) (T : ℕ)
    (hT : (sysRun true n sched T).modelLoaded = true) :
    ∃ D, T ≤ D ∧ (sysRun true n sched D).pcs i = .done := by
  obtain ⟨k1, hk1le, hk1i, hk1min⟩ := fair_nextSched n sched hf i T
  have hld1 : (sysRun true n sched k1).modelLoaded = true :=
    loaded_at_ge true n sched T k1 hk1le hT
  have helim1 := sysInv_loaded_elim _ (sysInv_run true n sched k1) hld1
  have hcase : (sysRun true n sched k1).pcs i = .start ∨
      (sysRun true n sched k1).pcs i = .waiting ∨
      (sysRun true n sched k1).pcs i = .run ∨
      (sysRun true n sched k1).pcs i = .done := by
    rcases hpc : (sysRun true n sched k1).pcs i with h0 | h0 | h0 | h0 | h0 | h0 | h0
    · left; rfl
    · exact absurd hpc (helim1.2.2 i).1
    · exact absurd hpc (helim1.2.2 i).2.1
    · right; left; rfl
    · right; right; left; rfl
    · right; right; right; rfl
    · exact absurd hpc (helim1.2.2 i).2.2
  have hnext : (sysRun true n sched (k1 + 1)).pcs i = .run ∨
      (sysRun true n sched (k1 + 1)).pcs i = .done := by
    show (stepCall true (sysRun true n sched k1) (sched k1)).pcs i = .run ∨
      (stepCall true (sysRun true n sched k1) (sched k1)).pcs i = .done
    rw [hk1i]
    rcases hcase with h0 | h0 | h0 | h0
    · rw [stepCall_start_run true _ i h0 hld1]; left; simp
    · rw [stepCall_wait_free true _ i h0 helim1.1]; left; simp
    · rw [stepCall_run true _ i h0]; right; simp
    · rw [stepCall_done_eq true _ i h0]; right; exact h0
  obtain ⟨k2, hk2le, hk2i, hk2min⟩ := fair_nextSched n sched hf i (k1 + 1)
  have hfz : (sysRun true n sched k2).pcs i =
      (sysRun true n sched (k1 + 1)).pcs i :=
    sysRun_pcs_frozen true n sched i (k1 + 1) k2 hk2le hk2min
  refine ⟨k2 + 1, by omega, ?_⟩
  show (stepCall true (sysRun true n sched k2) (sched k2)).pcs i = .done
  rw [hk2i]
  rcases hnext with h0 | h0
  · rw [stepCall_run true _ i (hfz.trans h0)]; simp
  · rw [stepCall_done_eq true _ i (hfz.trans h0)]; exact hfz.trans h0

/-- `Math.round` is monotone. -/
theorem jsRound_mono {q r : ℚ} (h : q ≤ r) : jsRound q ≤ jsRound r :=
  Int.floor_mono (by linarith)

/-- The percent formula is monotone in the received byte count. -/
theorem percent_mono (t : ℕ) (ht : 0 < t) {d d' : ℕ} (h : d ≤ d') :
    10 + jsRound ((d : ℚ) / (t : ℚ) * 60) ≤
      10 + jsRound ((d' : ℚ) / (t : ℚ) * 60) := by
  have ht0 : (0 : ℚ) < (t : ℚ) := by exact_mod_cast ht
  have hcast : (d : ℚ) ≤ (d' : ℚ) := by exact_mod_cast h
  have hdiv : (d : ℚ) / (t : ℚ) ≤ (d' : ℚ) / (t : ℚ) :=
    (div_le_div_iff_of_pos_right ht0).mpr hcast
  have hmul : (d : ℚ) / (t : ℚ) * 60 ≤ (d' : ℚ) / (t : ℚ) * 60 :=
    mul_le_mul_of_nonneg_right hdiv (by norm_num)
  exact add_le_add_left (jsRound_mono hmul) 10

/-- Without a reported content length the loop emits nothing. -/
theorem downloadEmitsAux_total_zero :
    ∀ (chunks : List ℕ) (d : ℕ) (l : ℤ), downloadEmitsAux 0 chunks d l = [] := by
  intro chunks
  induction chunks with
  | nil => intro d l; rfl
  | cons c cs ih =>
    intro d l
    simp only [downloadEmitsAux, Nat.lt_irrefl, if_false]
    exact ih (d + c) l

/-- The emitted download percents are strictly increasing above the recorded
last percent, whenever that recorded percent is the percent of the bytes
already received. -/
theorem downloadEmitsAux_chain (t : ℕ) (ht : 0 < t) :
    ∀ (chunks : List ℕ) (d : ℕ) (l : ℤ),
      l = 10 + jsRound ((d : ℚ) / (t : ℚ) * 60) →
      List.Chain' (· < ·) (l :: downloadEmitsAux t chunks d l) := by
  intro chunks
  induction chunks with
  | nil => intro d l _; simp [downloadEmitsAux]
  | cons c cs ih =>
    intro d l hl
    simp only [downloadEmitsAux, if_pos ht]
    by_cases hne : (10 + jsRound (((d + c : ℕ) : ℚ) / (t : ℚ) * 60) : ℤ) = l
    · rw [if_neg (by simpa using hne)]
      exact ih (d + c) l (by rw [← hne])
    · rw [if_pos (by simpa using hne)]
      rw [List.chain'_cons]
      constructor
      · have hle : l ≤ 10 + jsRound (((d + c : ℕ) : ℚ) / (t : ℚ) * 60) := by
          rw [hl]; exact percent_mono t ht (Nat.le_add_right d c)
        exact lt_of_le_of_ne hle (Ne.symm hne)
      · exact ih (d + c) _ rfl

/-- Every emitted percent is the percent formula at some prefix of the
received chunks. -/
theorem downloadEmitsAux_mem (t : ℕ) :
    ∀ (chunks : List ℕ) (d : ℕ) (l : ℤ) (p : ℤ),
      p ∈ downloadEmitsAux t chunks d l →
      ∃ k, 0 < k ∧ k ≤ chunks.length ∧
        p = 10 + jsRound (((d + (chunks.take k).sum : ℕ) : ℚ) / (t : ℚ) * 60) := by
  intro chunks
  induction chunks with
  | nil => intro d l p hp; simp [downloadEmitsAux] at hp
  | cons c cs ih =>
    intro d l p hp
    by_cases ht : 0 < t
    · simp only [downloadEmitsAux, if_pos ht] at hp
      by_cases hne : (10 + jsRound (((d + c : ℕ) : ℚ) / (t : ℚ) * 60) : ℤ) = l
      · rw [if_neg (by simpa using hne)] at hp
        obtain ⟨k, hk0, hkle, hkp⟩ := ih (d + c) l p hp
        refine ⟨k + 1, by omega, by simpa using Nat.succ_le_succ hkle, ?_⟩
        rw [hkp, List.take_succ_cons, List.sum_cons, ← Nat.add_assoc]
      · rw [if_pos (by simpa using hne)] at hp
        rcases List.mem_cons.mp hp with hhead | htail
        · refine ⟨1, Nat.one_pos, by simp, ?_⟩
          rw [hhead]
          simp
        · obtain ⟨k, hk0, hkle, hkp⟩ := ih (d + c) _ p htail
          refine ⟨k + 1, by omega, by simpa using Nat.succ_le_succ hkle, ?_⟩
          rw [hkp, List.take_succ_cons, List.sum_cons, ← Nat.add_assoc]
    · have ht0 : t = 0 := by omega
      rw [ht0, downloadEmitsAux_total_zero] at hp
      simp at hp

/-- The alternating two-call schedule is fair. -/
theorem altSched_fair : FairSched 2 altSched := by
  intro i m
  refine ⟨2 * m + i.val, by omega, ?_⟩
  have hi := i.isLt
  apply Fin.ext
  show (2 * m + i.val) % 2 = i.val
  omega

/-- C6: a cache `put` followed by `get` with the same key returns the stored
bytes; a missing or failing storage backend leaves `put` a (non-raising)
no-op and makes `get` report a cache miss, never an error. -/
theorem C6_cache_roundtrip (key : String) (buf : List ℕ)
    (store : List (String × CacheEntry)) (now : ℕ) :
    getCachedModel (cacheModel (.ok store) key buf now) key = some buf ∧
    cacheModel .absent key buf now = .absent ∧
    cacheModel .openFails key buf now = .openFails ∧
    getCachedModel .absent key = none ∧
    getCachedModel .openFails key = none := by
  refine ⟨?_, rfl, rfl, rfl, rfl⟩
  simp [cacheModel, getCachedModel, List.lookup]

/-- C7: a value that is neither an image handle nor a string (such as `42`)
makes `removeBackground` throw the input-type error immediately after the
initial progress event, with no network or storage access on the trace. -/
theorem C7_invalid_input (mp : ModelPath) :
    removeBackgroundTrace (.num 42) mp =
      ([.progress 0], .error "Input must be an HTMLImageElement or a base64 string") ∧
    CallAction.netFetch ∉ (removeBackgroundTrace (.num 42) mp).1 ∧
    CallAction.idbAccess ∉ (removeBackgroundTrace (.num 42) mp).1 := by
  refine ⟨rfl, ?_, ?_⟩ <;> simp [removeBackgroundTrace]

/-- C8: the fetch fails exactly when the response status is not ok or the
body is missing; on success the returned buffer is the in-order
concatenation of the chunks, and the cache write (whatever the storage
environment) never fails the fetch. -/
theorem C8_download_contract (resp : HttpResponse) (env : IDBEnv)
    (key : String) (now : ℕ) :
    ((∃ e, downloadAndCacheModelWithProgress resp env key now = .error e) ↔
      resp.ok = false ∨ resp.body = none) ∧
    (∀ chunks, resp.body = some chunks → resp.ok = true →
      downloadAndCacheModelWithProgress resp env key now =
        .ok (chunks.flatten, cacheModel env key chunks.flatten now)) := by
  obtain ⟨ok, body, len⟩ := resp
  cases ok <;> rcases body with _ | chunks <;>
    simp [downloadAndCacheModelWithProgress]

/-- C8 witness: a successful two-chunk download against a failing store. -/
theorem C8_download_contract_witness :
    downloadAndCacheModelWithProgress ⟨true, some [[1], [2, 3]], 3⟩ .openFails "k" 0 =
      .ok ([1, 2, 3], .openFails) :=
  (C8_download_contract ⟨true, some [[1], [2, 3]], 3⟩ .openFails "k" 0).2
    [[1], [2, 3]] rfl rfl

/-- C2 counterexample: on the cache-hit path the emitted percents are
`0, 5, 15, 30, 15, 35, 70, 90, 100` — the drop from 30 back to 15 at the
preprocessing milestone breaks strict monotonicity, refuting the claim that
every path is strictly increasing. -/
theorem C2_counterexample :
    tracePercents (.img ⟨1, 1, [⟨0, 0, 0, 255⟩]⟩) .cacheHit =
      [0, 5, 15, 30, 15, 35, 70, 90, 100] ∧
    ¬ List.Chain' (· < ·) (tracePercents (.img ⟨1, 1, [⟨0, 0, 0, 255⟩]⟩) .cacheHit) := by
  constructor
  · rfl
  · show ¬ List.Chain' (· < ·) [0, 5, 15, 30, 15, 35, 70, 90, 100]
    norm_num [List.chain'_cons]

/-- C2 (amended): the progress percents of one invocation are strictly
increasing on the already-loaded and wait-for-concurrent-load paths (for
both image and base64 inputs); on the two first-load paths the sequence
falls back to 15 at preprocessing and is not monotone. -/
theorem C2_amended (im : Image) (s : String) :
    List.Chain' (· < ·) (tracePercents (.img im) .alreadyLoaded) ∧
    List.Chain' (· < ·) (tracePercents (.str s) .alreadyLoaded) ∧
    List.Chain' (· < ·) (tracePercents (.img im) .waitLoading) ∧
    List.Chain' (· < ·) (tracePercents (.str s) .waitLoading) := by
  refine ⟨?_, ?_, ?_, ?_⟩
  · show List.Chain' (· < ·) [0, 10, 15, 35, 70, 90, 100]
    norm_num [List.chain'_cons]
  · show List.Chain' (· < ·) [0, 2, 10, 15, 35, 70, 90, 100]
    norm_num [List.chain'_cons]
  · show List.Chain' (· < ·) [0, 10, 15, 35, 70, 90, 100]
    norm_num [List.chain'_cons]
  · show List.Chain' (· < ·) [0, 2, 10, 15, 35, 70, 90, 100]
    norm_num [List.chain'_cons]

/-- C9 counterexample: with a reported total of 1 byte and a single 2-byte
chunk the loop emits 130, outside the claimed clamping band `[10, 70]` —
the source never clamps the percent. -/
theorem C9_counterexample :
    downloadEmits [2] 1 = [130] ∧ (70 : ℤ) < 130 := by
  constructor
  · norm_num [downloadEmits, downloadEmitsAux, jsRound]
  · decide

/-- C9 (amended): with no reported content length nothing is emitted; with a
positive total every emitted percent is `10 + round(bytesReceived/total*60)`
(unclamped — it exceeds 70 when more bytes arrive than the reported total)
for the byte count of some chunk prefix, and consecutive emitted percents
strictly increase (so a percent is only emitted when it changes). -/
theorem C9_amended (chunks : List ℕ) (t : ℕ) :
    (t = 0 → downloadEmits chunks t = []) ∧
    (0 < t → List.Chain' (· < ·) ((10 : ℤ) :: downloadEmits chunks t) ∧
      ∀ p ∈ downloadEmits chunks t, ∃ k, 0 < k ∧ k ≤ chunks.length ∧
        p = 10 + jsRound ((((chunks.take k).sum : ℕ) : ℚ) / (t : ℚ) * 60)) := by
  constructor
  · intro ht0
    rw [ht0]
    exact downloadEmitsAux_total_zero chunks 0 10
  · intro ht
    constructor
    · apply downloadEmitsAux_chain t ht chunks 0 10
      simp [jsRound]
      norm_num
    · intro p hp
      obtain ⟨k, hk0, hkle, hkp⟩ := downloadEmitsAux_mem t chunks 0 10 p hp
      refine ⟨k, hk0, hkle, ?_⟩
      rw [hkp]
      norm_num

/-- C5: (1) in every reachable state, for any number of concurrent calls and
either load outcome, at most one call holds the in-flight model load; (2)
two simultaneous first-time calls under any fair schedule both finish with
exactly one model download. -/
theorem C5_single_flight :
    (∀ (success : Bool) (n : ℕ) (sched : ℕ → Fin n) (t : ℕ) (i j : Fin n),
      inLoad ((sysRun success n sched t).pcs i) →
      inLoad ((sysRun success n sched t).pcs j) → i = j) ∧
    (∀ sched : ℕ → Fin 2, FairSched 2 sched →
      ∃ T, (sysRun true 2 sched T).pcs 0 = .done ∧
        (sysRun true 2 sched T).pcs 1 = .done ∧
        (sysRun true 2 sched T).downloads = 1) := by
  constructor
  · intro success n sched t i j hi hj
    exact sysInv_inLoad_unique _ (sysInv_run success n sched t) i j hi hj
  · intro sched hf
    obtain ⟨T0, hT0⟩ := loaded_eventually 2 sched hf
    obtain ⟨D0, hD0le, hD0⟩ := call_done_eventually 2 sched hf 0 T0 hT0
    obtain ⟨D1, hD1le, hD1⟩ := call_done_eventually 2 sched hf 1 T0 hT0
    refine ⟨max D0 D1, ?_, ?_, ?_⟩
    · exact done_at_ge true 2 sched 0 D0 _ (le_max_left _ _) hD0
    · exact done_at_ge true 2 sched 1 D1 _ (le_max_right _ _) hD1
    · have hld : (sysRun true 2 sched (max D0 D1)).modelLoaded = true :=
        loaded_at_ge true 2 sched T0 _
          (le_trans hD0le (le_max_left _ _)) hT0
      exact (sysInv_loaded_elim _ (sysInv_run true 2 sched _) hld).2.1

/-- C5 witness: under the concrete fair alternating schedule the two-call
system reaches a state with both calls done and one download. -/
theorem C5_single_flight_witness :
    ∃ T, (sysRun true 2 altSched T).pcs 0 = .done ∧
      (sysRun true 2 altSched T).pcs 1 = .done ∧
      (sysRun true 2 altSched T).downloads = 1 :=
  C5_single_flight.2 altSched altSched_fair

/-- C10: after the model load of a failing run, `modelLoading` stays set at
every later time, any call seen polling keeps polling forever, no more than
the one download is ever initiated, and no call ever completes. -/
theorem C10_load_failure_stuck (n : ℕ) (sched : ℕ → Fin n) (t : ℕ)
    (i j : Fin n) (d : ℕ)
    (hl : (sysRun false n sched t).modelLoading = true)
    (hw : (sysRun false n sched t).pcs i = .waiting) :
    (sysRun false n sched (t + d)).modelLoading = true ∧
    (sysRun false n sched (t + d)).pcs i = .waiting ∧
    (sysRun false n sched (t + d)).downloads ≤ 1 ∧
    (sysRun false n sched (t + d)).pcs j ≠ .done := by
  obtain ⟨h1, h2⟩ := failLoading_stable n sched t i hl hw d
  exact ⟨h1, h2, sysInv_downloads_le _ (sysInv_run false n sched (t + d)),
    ((failInv_run n sched (t + d)).2 j).2.2⟩

/-- C10 witness: at time 2 of the alternating schedule with a failing load,
call 1 is polling and the flag is set; five steps later the flag is still
set, call 1 still polls, downloads stay at one and call 0 never completed. -/
theorem C10_load_failure_stuck_witness :
    (sysRun false 2 altSched (2 + 5)).modelLoading = true ∧
    (sysRun false 2 altSched (2 + 5)).pcs 1 = .waiting ∧
    (sysRun false 2 altSched (2 + 5)).downloads ≤ 1 ∧
    (sysRun false 2 altSched (2 + 5)).pcs 0 ≠ .done :=
  C10_load_failure_stuck 2 altSched 2 1 0 5 (by decide) (by decide)

/-- Clamped byte stores never exceed 255. -/
theorem clampByte_le (z : ℤ) : clampByte z ≤ 255 := by
  unfold clampByte
  omega

/-- Reading a mapped range list at an in-range index. -/
theorem getD_map_range {α : Type} (f : ℕ → α) (n i : ℕ) (hi : i < n) (d : α) :
    ((List.range n).map f).getD i d = f i := by
  rw [List.getD_eq_getElem?_getD, List.getElem?_map, List.getElem?_range hi]
  rfl

/-- An in-range `getD` read is a member of the list. -/
theorem getD_mem {α : Type} (l : List α) (i : ℕ) (d : α) (hi : i < l.length) :
    l.getD i d ∈ l := by
  rw [List.getD_eq_getElem?_getD, List.getElem?_eq_getElem hi]
  exact List.getElem_mem hi

/-- C4: compositing keeps the dimensions, writes exactly width×height
pixels (as many as the input image has), leaves every R, G and B byte of
every pixel unchanged, and stores an alpha byte that is at most 255. -/
theorem C4_composite_frame (img : Image) (mask : List ℚ) (i : ℕ)
    (h : img.data.length = img.width * img.height)
    (hi : i < img.width * img.height) :
    (applyMask img mask).width = img.width ∧
    (applyMask img mask).height = img.height ∧
    (applyMask img mask).data.length = img.width * img.height ∧
    (applyMask img mask).data.length = img.data.length ∧
    ((applyMask img mask).data.getD i default).r = (img.data.getD i default).r ∧
    ((applyMask img mask).data.getD i default).g = (img.data.getD i default).g ∧
    ((applyMask img mask).data.getD i default).b = (img.data.getD i default).b ∧
    ((applyMask img mask).data.getD i default).a ≤ 255 := by
  have hg : (applyMask img mask).data.getD i default =
      applyMaskPixel mask img.width img.height (img.data.getD i default)
        (i % img.width) (i / img.width) := by
    unfold applyMask
    exact getD_map_range _ _ i hi default
  refine ⟨rfl, rfl, by simp [applyMask], by simp [applyMask, h], ?_, ?_, ?_, ?_⟩
  · rw [hg]; rfl
  · rw [hg]; rfl
  · rw [hg]; rfl
  · rw [hg]; exact clampByte_le _

/-- C4 witness: a 2×1 image with a constant half mask. -/
theorem C4_composite_frame_witness :
    (applyMask ⟨2, 1, [⟨1, 2, 3, 4⟩, ⟨5, 6, 7, 8⟩]⟩ [(1 : ℚ)/2]).width = 2 ∧
    (applyMask ⟨2, 1, [⟨1, 2, 3, 4⟩, ⟨5, 6, 7, 8⟩]⟩ [(1 : ℚ)/2]).height = 1 ∧
    (applyMask ⟨2, 1, [⟨1, 2, 3, 4⟩, ⟨5, 6, 7, 8⟩]⟩ [(1 : ℚ)/2]).data.length = 2 * 1 ∧
    (applyMask ⟨2, 1, [⟨1, 2, 3, 4⟩, ⟨5, 6, 7, 8⟩]⟩ [(1 : ℚ)/2]).data.length =
      ([⟨1, 2, 3, 4⟩, ⟨5, 6, 7, 8⟩] : List Pixel).length ∧
    ((applyMask ⟨2, 1, [⟨1, 2, 3, 4⟩, ⟨5, 6, 7, 8⟩]⟩ [(1 : ℚ)/2]).data.getD 1 default).r =
      (([⟨1, 2, 3, 4⟩, ⟨5, 6, 7, 8⟩] : List Pixel).getD 1 default).r ∧
    ((applyMask ⟨2, 1, [⟨1, 2, 3, 4⟩, ⟨5, 6, 7, 8⟩]⟩ [(1 : ℚ)/2]).data.getD 1 default).g =
      (([⟨1, 2, 3, 4⟩, ⟨5, 6, 7, 8⟩] : List Pixel).getD 1 default).g ∧
    ((applyMask ⟨2, 1, [⟨1, 2, 3, 4⟩, ⟨5, 6, 7, 8⟩]⟩ [(1 : ℚ)/2]).data.getD 1 default).b =
      (([⟨1, 2, 3, 4⟩, ⟨5, 6, 7, 8⟩] : List Pixel).getD 1 default).b ∧
    ((applyMask ⟨2, 1, [⟨1, 2, 3, 4⟩, ⟨5, 6, 7, 8⟩]⟩ [(1 : ℚ)/2]).data.getD 1 default).a ≤ 255 :=
  C4_composite_frame ⟨2, 1, [⟨1, 2, 3, 4⟩, ⟨5, 6, 7, 8⟩]⟩ [(1 : ℚ)/2] 1 rfl
    (by norm_num)

/-- C1 counterexample: a 1×1 image with the one-cell mask `[2]`.  The claim
says the alpha written is `round(2 * 255) = 510`; the clamped byte store
makes the code write 255. -/
theorem C1_counterexample :
    ((applyMask ⟨1, 1, [⟨10, 20, 30, 40⟩]⟩ [2]).data.getD 0 default).a = 255 ∧
    jsRound ((2 : ℚ) * 255) = 510 ∧ (255 : ℤ) ≠ 510 := by
  refine ⟨?_, ?_, by decide⟩
  · norm_num [applyMask, applyMaskPixel, maskValue, clampByte, jsRound,
      List.range_succ]
    decide
  · norm_num [jsRound]

/-- C1 (amended): when the mask length is a perfect square `M * M`, the
compositor writes, at pixel `(x, y)`, the alpha
`round(mask[(y*M/height)*M + x*M/width] * 255)` clamped into `[0, 255]`
(an absent mask value is read as 0).  For masks whose length is not a
perfect square the selected index is not an integer whenever the mask row
is positive, and the code then writes 0 instead. -/
theorem C1_composite_formula (img : Image) (mask : List ℚ) (M : ℕ)
    (hM : mask.length = M * M) (x y : ℕ)
    (hx : x < img.width) (hy : y < img.height) :
    ((applyMask img mask).data.getD (y * img.width + x) default).a =
      clampByte (jsRound
        (mask.getD ((y * M / img.height) * M + x * M / img.width) 0 * 255)) := by
  have hw : 0 < img.width := by omega
  have hi : y * img.width + x < img.width * img.height := by
    have h1 : y * img.width + x < (y + 1) * img.width := by
      rw [add_mul, one_mul]; omega
    have h2 : (y + 1) * img.width ≤ img.height * img.width :=
      Nat.mul_le_mul_right _ (by omega)
    have h3 : img.height * img.width = img.width * img.height :=
      Nat.mul_comm _ _
    omega
  have hxmod : (y * img.width + x) % img.width = x := by
    rw [Nat.mul_comm y img.width, Nat.mul_add_mod]
    exact Nat.mod_eq_of_lt hx
  have hxdiv : (y * img.width + x) / img.width = y := by
    rw [Nat.mul_comm y img.width, Nat.mul_add_div hw, Nat.div_eq_of_lt hx]
    omega
  have hg : (applyMask img mask).data.getD (y * img.width + x) default =
      applyMaskPixel mask img.width img.height
        (img.data.getD (y * img.width + x) default) x y := by
    unfold applyMask
    rw [getD_map_range _ _ _ hi default, hxmod, hxdiv]
  rw [hg]
  have hmv : maskValue mask img.width img.height x y =
      mask.getD ((y * M / img.height) * M + x * M / img.width) 0 := by
    simp only [maskValue, hM]
    have hx2 : x * x * (M * M) = x * M * (x * M) := by ring
    have hy2 : y * y * (M * M) = y * M * (y * M) := by ring
    rw [hx2, hy2]
    simp [Nat.sqrt_eq]
  show clampByte (jsRound (maskValue mask img.width img.height x y * 255)) = _
  rw [hmv]

/-- C1 witness: a 2×1 image against a 1×1 mask of one half. -/
theorem C1_composite_formula_witness :
    ((applyMask ⟨2, 1, [⟨1, 2, 3, 4⟩, ⟨5, 6, 7, 8⟩]⟩ [(1 : ℚ)/2]).data.getD
        (0 * 2 + 1) default).a =
      clampByte (jsRound
        (([(1 : ℚ)/2].getD ((0 * 1 / 1) * 1 + 1 * 1 / 2) 0) * 255)) :=
  C1_composite_formula ⟨2, 1, [⟨1, 2, 3, 4⟩, ⟨5, 6, 7, 8⟩]⟩ [(1 : ℚ)/2] 1 rfl
    1 0 (by norm_num) (by norm_num)

/-- `getD` on an append, inside the left part. -/
theorem getD_append_left {α : Type} (l1 l2 : List α) (i : ℕ)
    (hi : i < l1.length) (d : α) : (l1 ++ l2).getD i d = l1.getD i d := by
  rw [List.getD_eq_getElem?_getD, List.getElem?_append_left hi,
    ← List.getD_eq_getElem?_getD]

/-- `getD` on an append, at an offset into the right part. -/
theorem getD_append_at {α : Type} (l1 l2 : List α) (i j : ℕ)
    (hj : j = l1.length + i) (d : α) : (l1 ++ l2).getD j d = l2.getD i d := by
  subst hj
  rw [List.getD_eq_getElem?_getD,
    List.getElem?_append_right (Nat.le_add_right _ _),
    Nat.add_sub_cancel_left, ← List.getD_eq_getElem?_getD]

/-- C3: preprocessing declares shape `[1,3,1024,1024]` and produces
`3·1024·1024` values; every value lies in `[0,1]`; the value at planar
position `i` (respectively `1024²+i`, `2·1024²+i`) is the R (G, B) byte of
pixel `i` divided by 255; and an image with the same R, G, B bytes but any
other alpha bytes preprocesses to the same tensor. -/
theorem C3_preprocess (data : List Pixel) (i : ℕ) (v : ℚ) (data2 : List Pixel)
    (hlen : data.length = 1024 * 1024)
    (hbyte : ∀ p ∈ data, p.r ≤ 255 ∧ p.g ≤ 255 ∧ p.b ≤ 255)
    (hi : i < 1024 * 1024)
    (hv : v ∈ (preprocessImage data).data)
    (hrgb : ∀ k : ℕ, (data2.getD k default).r = (data.getD k default).r ∧
      (data2.getD k default).g = (data.getD k default).g ∧
      (data2.getD k default).b = (data.getD k default).b) :
    (preprocessImage data).dims = [1, 3, 1024, 1024] ∧
    (preprocessImage data).data.length = 1 * 3 * (1024 * 1024) ∧
    (0 ≤ v ∧ v ≤ 1) ∧
    (preprocessImage data).data.getD i 0 = ((data.getD i default).r : ℚ) / 255 ∧
    (preprocessImage data).data.getD (1024 * 1024 + i) 0 =
      ((data.getD i default).g : ℚ) / 255 ∧
    (preprocessImage data).data.getD (2 * (1024 * 1024) + i) 0 =
      ((data.getD i default).b : ℚ) / 255 ∧
    preprocessImage data2 = preprocessImage data := by
  have hmem : ∀ k : ℕ, k < 1024 * 1024 → data.getD k default ∈ data := by
    intro k hk
    exact getD_mem data k default (by omega)
  have hval : ∀ w : ℚ, w ∈ (preprocessImage data).data → 0 ≤ w ∧ w ≤ 1 := by
    intro w hw
    simp only [preprocessImage, List.mem_append, List.mem_map,
      List.mem_range] at hw
    have hbound : ∀ c : ℕ, c ≤ 255 → 0 ≤ (c : ℚ) / 255 ∧ (c : ℚ) / 255 ≤ 1 := by
      intro c hc
      constructor
      · positivity
      · rw [div_le_one (by norm_num)]
        exact_mod_cast hc
    rcases hw with (⟨k, hk, rfl⟩ | ⟨k, hk, rfl⟩) | ⟨k, hk, rfl⟩
    · exact hbound _ (hbyte _ (hmem k hk)).1
    · exact hbound _ (hbyte _ (hmem k hk)).2.1
    · exact hbound _ (hbyte _ (hmem k hk)).2.2
  refine ⟨rfl, by simp [preprocessImage], hval v hv, ?_, ?_, ?_, ?_⟩
  · simp only [preprocessImage]
    rw [getD_append_left _ _ i (by simp; omega) 0,
      getD_append_left _ _ i (by simp [hi]) 0,
      getD_map_range _ _ i hi 0]
  · simp only [preprocessImage]
    rw [getD_append_left _ _ (1024 * 1024 + i) (by simp; omega) 0,
      getD_append_at _ _ i (1024 * 1024 + i) (by simp) 0,
      getD_map_range _ _ i hi 0]
  · simp only [preprocessImage]
    rw [getD_append_at _ _ i (2 * (1024 * 1024) + i) (by simp) 0,
      getD_map_range _ _ i hi 0]
  · simp only [preprocessImage, Tensor.mk.injEq]
    refine ⟨trivial, ?_⟩
    have hplane : ∀ f g : Pixel → ℕ, (∀ k : ℕ, f (data2.getD k default) =
        g (data.getD k default)) →
        ((List.range (1024 * 1024)).map fun k => (f (data2.getD k default) : ℚ) / 255)
          = (List.range (1024 * 1024)).map fun k => (g (data.getD k default) : ℚ) / 255 := by
      intro f g hfg
      apply List.map_congr_left
      intro k _
      rw [hfg k]
    exact congrArg₂ (· ++ ·)
      (congrArg₂ (· ++ ·)
        (hplane Pixel.r Pixel.r fun k => (hrgb k).1)
        (hplane Pixel.g Pixel.g fun k => (hrgb k).2.1))
      (hplane Pixel.b Pixel.b fun k => (hrgb k).2.2)


/-- C3 witness: the all-black 1024×1024 buffer. -/
theorem C3_preprocess_witness :
    (preprocessImage (List.replicate (1024 * 1024) (⟨0, 0, 0, 0⟩ : Pixel))).dims =
      [1, 3, 1024, 1024] ∧
    (preprocessImage (List.replicate (1024 * 1024) (⟨0, 0, 0, 0⟩ : Pixel))).data.length =
      1 * 3 * (1024 * 1024) ∧
    ((0 : ℚ) ≤ 0 ∧ (0 : ℚ) ≤ 1) ∧
    (preprocessImage (List.replicate (1024 * 1024) (⟨0, 0, 0, 0⟩ : Pixel))).data.getD 0 0 =
      (((List.replicate (1024 * 1024) (⟨0, 0, 0, 0⟩ : Pixel)).getD 0 default).r : ℚ) / 255 ∧
    (preprocessImage (List.replicate (1024 * 1024) (⟨0, 0, 0, 0⟩ : Pixel))).data.getD
        (1024 * 1024 + 0) 0 =
      (((List.replicate (1024 * 1024) (⟨0, 0, 0, 0⟩ : Pixel)).getD 0 default).g : ℚ) / 255 ∧
    (preprocessImage (List.replicate (1024 * 1024) (⟨0, 0, 0, 0⟩ : Pixel))).data.getD
        (2 * (1024 * 1024) + 0) 0 =
      (((List.replicate (1024 * 1024) (⟨0, 0, 0, 0⟩ : Pixel)).getD 0 default).b : ℚ) / 255 ∧
    preprocessImage (List.replicate (1024 * 1024) (⟨0, 0, 0, 0⟩ : Pixel)) =
      preprocessImage (List.replicate (1024 * 1024) (⟨0, 0, 0, 0⟩ : Pixel)) := by
  refine C3_preprocess (List.replicate (1024 * 1024) ⟨0, 0, 0, 0⟩) 0 0
    (List.replicate (1024 * 1024) ⟨0, 0, 0, 0⟩) (by rw [List.length_replicate]) ?_ (by norm_num) ?_
    (fun k => ⟨rfl, rfl, rfl⟩)
  · intro p hp
    obtain rfl := List.eq_of_mem_replicate hp
    exact ⟨by norm_num, by norm_num, by norm_num⟩
  · simp only [preprocessImage]
    refine List.mem_append.mpr (Or.inl (List.mem_append.mpr (Or.inl ?_)))
    refine List.mem_map.mpr ⟨0, List.mem_range.mpr (by norm_num), ?_⟩
    rw [List.getD_eq_getElem?_getD, List.getElem?_replicate,
      if_pos (by norm_num), Option.getD_some]
    norm_num

/-- C9 witness: a two-chunk stream with a 10-byte total emits strictly
increasing percents. -/
theorem C9_amended_witness :
    List.Chain' (· < ·) ((10 : ℤ) :: downloadEmits [1, 2] 10) :=
  ((C9_amended [1, 2] 10).2 (by norm_num)).1
